import Mathlib

/-!
Verification of the Og-Wcwidth repository: a TypeScript port of Markus
Kuhn's `wcwidth`/`wcswidth` with an additional O(1) multi-level-table
variant and a CJK ("ambiguous-as-wide") variant.

Shallow embedding conventions:
  * A JavaScript "single character" input is modelled as `Option Nat`:
    `none` models a string whose `codePointAt(0)` is `undefined`, and
    `some cp` models a string whose first decoded scalar value is `cp`
    (`codePointAt` always yields values in `[0, 0x10FFFF]`).
  * A JavaScript string iterated with `for (const char of str)` is
    modelled as the `List Nat` of its decoded code points.
  * JavaScript numbers holding signed 32-bit bitset masks are modelled
    as `Int`; the `>>> 0`-style coercion performed by the `>>>` operator
    is modelled by `toU32`.
  * The generated data modules `./combining` (the combining-mark bitset)
    and `./table` (the binary multi-level table) are not part of the
    corpus; functions depending on them are parameterized by the bitset
    accessor `combining : Nat → Int`, and the table is modelled from the
    spec (see `specTableU32` below).
-/

namespace OgWcwidth

/-- JavaScript `x >>> k` first coerces `x` to an unsigned 32-bit integer.
`toU32` models that coercion for an `Int`-valued mask. -/
def toU32 (v : Int) : Nat := (v % 4294967296).toNat

/-- Combining-bitset membership test, translated from `src/src/index.ts`
(the `isCombining` closure inside the reference `wcwidth`):
`ucs <= 0x10ffff && ((combining(ucs >> 5) >>> (ucs & 31)) & 1) !== 0`.
The accessor `combining` is a parameter because the generated module
`./combining` is not part of the corpus. -/
def isCombining (combining : Nat → Int) (ucs : Nat) : Bool :=
  decide (ucs ≤ 0x10ffff) &&
    decide ((toU32 (combining (ucs >>> 5)) >>> (ucs &&& 31)) &&& 1 ≠ 0)

/-- Reference `wcwidth`, translated from `src/src/index.ts` (the Markus
Kuhn translation, lines 145-202), parameterized by the combining-bitset
accessor. The input is the decoded first code point (`none` when
`codePointAt(0)` is `undefined`). -/
def wcwidth (combining : Nat → Int) (char : Option Nat) : Int :=
  match char with
  | none => -1
  | some ucs =>
    if ucs = 0 then 0
    else if ucs < 32 ∨ (0x7f ≤ ucs ∧ ucs < 0xa0) then -1
    else if isCombining combining ucs then 0
    else if ucs < 0x1100 then 1
    else if ucs ≤ 0x115f ∨ ucs = 0x2329 ∨ ucs = 0x232a then 2
    else if ucs = 0x3164 then 1
    else if 0x2e80 ≤ ucs ∧ ucs ≤ 0xa4cf ∧ ucs ≠ 0x303f then 2
    else if (0xac00 ≤ ucs ∧ ucs ≤ 0xd7a3) ∨
            (0xf900 ≤ ucs ∧ ucs ≤ 0xfaff) ∨
            (0xfe10 ≤ ucs ∧ ucs ≤ 0xfe19) ∨
            (0xfe30 ≤ ucs ∧ ucs ≤ 0xfe6f) ∨
            (0xff00 ≤ ucs ∧ ucs ≤ 0xff60) ∨
            (0xffe0 ≤ ucs ∧ ucs ≤ 0xffe6) ∨
            (0x20000 ≤ ucs ∧ ucs ≤ 0x2fffd) ∨
            (0x30000 ≤ ucs ∧ ucs ≤ 0x3fffd) then 2
    else 1

/-- `n !== undefined && count >= n`, the loop-break test of `wcswidth`. -/
def limitReached (n : Option Nat) (count : Nat) : Bool :=
  match n with
  | some m => decide (m ≤ count)
  | none => false

/-- Loop body of the reference `wcswidth` (`src/src/index.ts` lines
214-231): iterate code points, break once `count` reaches the optional
limit, short-circuit to `-1` on a negative width, else accumulate. -/
def wcswidthGo (combining : Nat → Int) (n : Option Nat) :
    List Nat → Nat → Int → Int
  | [], _, width => width
  | c :: rest, count, width =>
    if limitReached n count then width
    else
      let w := wcwidth combining (some c)
      if w < 0 then -1
      else wcswidthGo combining n rest (count + 1) (width + w)

/-- Reference `wcswidth`, translated from `src/src/index.ts` lines
214-231. `if (!str) return 0` is the empty-list guard. -/
def wcswidth (combining : Nat → Int) (s : List Nat) (n : Option Nat) : Int :=
  if s = [] then 0 else wcswidthGo combining n s 0 0

/-- The hardcoded sorted interval table of East Asian Ambiguous
characters from `wcwidthCjk` in `src/src/index.ts` (lines 258-311). -/
def amTable : List (Nat × Nat) :=
  [ (0x00A1, 0x00A1), (0x00A4, 0x00A4), (0x00A7, 0x00A8),
    (0x00AA, 0x00AA), (0x00AE, 0x00AE), (0x00B0, 0x00B4),
    (0x00B6, 0x00BA), (0x00BC, 0x00BF), (0x00C6, 0x00C6),
    (0x00D0, 0x00D0), (0x00D7, 0x00D8), (0x00DE, 0x00E1),
    (0x00E6, 0x00E6), (0x00E8, 0x00EA), (0x00EC, 0x00ED),
    (0x00F0, 0x00F0), (0x00F2, 0x00F3), (0x00F7, 0x00FA),
    (0x00FC, 0x00FC), (0x00FE, 0x00FE), (0x0101, 0x0101),
    (0x0111, 0x0111), (0x0113, 0x0113), (0x011B, 0x011B),
    (0x0126, 0x0127), (0x012B, 0x012B), (0x0131, 0x0133),
    (0x0138, 0x0138), (0x013F, 0x0142), (0x0144, 0x0144),
    (0x0148, 0x014B), (0x014D, 0x014D), (0x0152, 0x0153),
    (0x0166, 0x0167), (0x016B, 0x016B), (0x01CE, 0x01CE),
    (0x01D0, 0x01D0), (0x01D2, 0x01D2), (0x01D4, 0x01D4),
    (0x01D6, 0x01D6), (0x01D8, 0x01D8), (0x01DA, 0x01DA),
    (0x01DC, 0x01DC), (0x0251, 0x0251), (0x0261, 0x0261),
    (0x02C4, 0x02C4), (0x02C7, 0x02C7), (0x02C9, 0x02CB),
    (0x02CD, 0x02CD), (0x02D0, 0x02D0), (0x02D8, 0x02DB),
    (0x02DD, 0x02DD), (0x02DF, 0x02DF), (0x0391, 0x03A1),
    (0x03A3, 0x03A9), (0x03B1, 0x03C1), (0x03C3, 0x03C9),
    (0x0401, 0x0401), (0x0410, 0x044F), (0x0451, 0x0451),
    (0x2010, 0x2010), (0x2013, 0x2016), (0x2018, 0x2019),
    (0x201C, 0x201D), (0x2020, 0x2022), (0x2024, 0x2027),
    (0x2030, 0x2030), (0x2032, 0x2033), (0x2035, 0x2035),
    (0x203B, 0x203B), (0x203E, 0x203E), (0x2074, 0x2074),
    (0x207F, 0x207F), (0x2081, 0x2084), (0x20AC, 0x20AC),
    (0x2103, 0x2103), (0x2105, 0x2105), (0x2109, 0x2109),
    (0x2113, 0x2113), (0x2116, 0x2116), (0x2121, 0x2122),
    (0x2126, 0x2126), (0x212B, 0x212B), (0x2153, 0x2154),
    (0x215B, 0x215E), (0x2160, 0x216B), (0x2170, 0x2179),
    (0x2190, 0x2199), (0x21B8, 0x21B9), (0x21D2, 0x21D2),
    (0x21D4, 0x21D4), (0x21E7, 0x21E7), (0x2200, 0x2200),
    (0x2202, 0x2203), (0x2207, 0x2208), (0x220B, 0x220B),
    (0x220F, 0x220F), (0x2211, 0x2211), (0x2215, 0x2215),
    (0x221A, 0x221A), (0x221D, 0x2220), (0x2223, 0x2223),
    (0x2225, 0x2225), (0x2227, 0x222C), (0x222E, 0x222E),
    (0x2234, 0x2237), (0x223C, 0x223D), (0x2248, 0x2248),
    (0x224C, 0x224C), (0x2252, 0x2252), (0x2260, 0x2261),
    (0x2264, 0x2267), (0x226A, 0x226B), (0x226E, 0x226F),
    (0x2282, 0x2283), (0x2286, 0x2287), (0x2295, 0x2295),
    (0x2299, 0x2299), (0x22A5, 0x22A5), (0x22BF, 0x22BF),
    (0x2312, 0x2312), (0x2460, 0x24E9), (0x24EB, 0x254B),
    (0x2550, 0x2573), (0x2580, 0x258F), (0x2592, 0x2595),
    (0x25A0, 0x25A1), (0x25A3, 0x25A9), (0x25B2, 0x25B3),
    (0x25B6, 0x25B7), (0x25BC, 0x25BD), (0x25C0, 0x25C1),
    (0x25C6, 0x25C8), (0x25CB, 0x25CB), (0x25CE, 0x25D1),
    (0x25E2, 0x25E5), (0x25EF, 0x25EF), (0x2605, 0x2606),
    (0x2609, 0x2609), (0x260E, 0x260F), (0x2614, 0x2615),
    (0x261C, 0x261C), (0x261E, 0x261E), (0x2640, 0x2640),
    (0x2642, 0x2642), (0x2660, 0x2661), (0x2663, 0x2665),
    (0x2667, 0x266A), (0x266C, 0x266D), (0x266F, 0x266F),
    (0x273D, 0x273D), (0x2776, 0x277F), (0xE000, 0xF8FF),
    (0xFFFD, 0xFFFD), (0xF0000, 0xFFFFD), (0x100000, 0x10FFFD) ]

/-- Binary-search loop of `bisearch` (`src/src/index.ts` lines 365-373).
`min`/`max` are `Int` because the JavaScript loop can drive `max` to
`mid - 1 = -1`. Out-of-range indexing (which cannot occur on the paths
actually taken) is modelled by `List.getD` with a dummy pair. -/
def bisearchGo (ucs : Nat) (table : List (Nat × Nat)) (min max : Int) : Nat :=
  if min ≤ max then
    if (table.getD ((min + max) / 2).toNat (0, 0)).2 < ucs then
      bisearchGo ucs table ((min + max) / 2 + 1) max
    else if ucs < (table.getD ((min + max) / 2).toNat (0, 0)).1 then
      bisearchGo ucs table min ((min + max) / 2 - 1)
    else 1
  else 0
termination_by (max + 1 - min).toNat
decreasing_by
  · omega
  · omega

/-- `bisearch`, translated from `src/src/index.ts` lines 358-376:
the initial out-of-range guard followed by the loop. -/
def bisearch (ucs : Nat) (table : List (Nat × Nat)) : Nat :=
  if ucs < (table.getD 0 (0, 0)).1 ∨
     (table.getD ((table.length : Int) - 1).toNat (0, 0)).2 < ucs then 0
  else bisearchGo ucs table 0 ((table.length : Int) - 1)

/-- `wcwidthCjk`, translated from `src/src/index.ts` lines 255-324:
East Asian Ambiguous code points (binary search in `amTable`) are wide;
everything else delegates to the reference `wcwidth`. -/
def wcwidthCjk (combining : Nat → Int) (char : Option Nat) : Int :=
  match char with
  | none => -1
  | some ucs =>
    if bisearch ucs amTable ≠ 0 then 2
    else wcwidth combining (some ucs)

/-- The sparse block-index → 32-bit-mask map of `src/src/ambiguous.ts`
(`ambiguousMap`), as an association list in source order. -/
def ambiguousMapList : List (Nat × Int) :=
  [ (5, -136362606), (6, -1048510400), (7, 1468872515), (8, 134873090),
    (9, -2129786688), (10, 798487), (11, 2240), (14, 357908480),
    (18, 131072), (19, 2), (22, -1358877040), (28, -131072),
    (29, -130053), (30, 1019), (32, -65534), (34, 196607),
    (256, 863567872), (257, 1210908919), (259, -2146435072), (260, 30),
    (261, 4096), (264, 4719144), (265, 2118), (266, 2014838784),
    (267, 67047423), (268, 67043328), (269, 50331648), (270, 1310720),
    (271, 128), (272, -467498611), (273, 821059497), (274, 266496),
    (275, 52467), (276, 35651788), (277, -2147483616), (280, 262144),
    (295, -1025), (298, -61441), (299, 1048575), (300, 3997695),
    (301, 818676731), (302, 248259), (303, 32828), (304, 1345372768),
    (306, 5), (307, 47035), (313, 536870912), (315, -4194304),
    (2047, 536870912), (32767, 1073741823), (34815, 1073741823) ]

/-- `ambiguousMap[idx] ?? 0`: association-list lookup defaulting to 0. -/
def lookupZero : List (Nat × Int) → Nat → Int
  | [], _ => 0
  | (k, v) :: rest, idx => if idx = k then v else lookupZero rest idx

/-- Bitset accessor for East Asian Ambiguous characters, translated from
`src/src/ambiguous.ts` lines 11-18: dense all-ones ranges short-circuit
to `-1`, otherwise the sparse map is consulted. -/
def ambiguous (idx : Nat) : Int :=
  if idx = 33 ∨ (291 ≤ idx ∧ idx ≤ 297 ∧ idx ≠ 295) ∨
     (1792 ≤ idx ∧ idx ≤ 1991) ∨
     (30720 ≤ idx ∧ idx ≤ 34814 ∧ idx ≠ 32767)
  then -1
  else lookupZero ambiguousMapList idx

/-- Bit `(cp & 31)` of `ambiguous(cp >> 5)`: membership of `cp` in the
dense-range/sparse-map ambiguous bitset, read exactly the way
`src/src/index.ts` reads bitset masks. -/
def ambBit (cp : Nat) : Bool :=
  decide ((toU32 (ambiguous (cp >>> 5)) >>> (cp &&& 31)) &&& 1 ≠ 0)

/-- Membership of `cp` in one of the intervals of the hardcoded
ambiguous table of `wcwidthCjk`. -/
def InAmbTable (cp : Nat) : Prop :=
  ∃ p ∈ amTable, p.1 ≤ cp ∧ cp ≤ p.2

instance (cp : Nat) : Decidable (InAmbTable cp) :=
  inferInstanceAs (Decidable (∃ p ∈ amTable, p.1 ≤ cp ∧ cp ≤ p.2))

/-! ### Generic helpers -/

/-- Bounded universal check as a Bool, evaluated by the kernel. -/
def checkBelow (f : Nat → Bool) : Nat → Bool
  | 0 => true
  | n + 1 => f n && checkBelow f n

theorem checkBelow_spec {f : Nat → Bool} :
    ∀ {n}, checkBelow f n = true → ∀ i, i < n → f i = true := by
  intro n
  induction n with
  | zero => intro _ i hi; omega
  | succ n ih =>
    intro h i hi
    rw [checkBelow, Bool.and_eq_true] at h
    rcases Nat.lt_succ_iff_lt_or_eq.mp hi with h' | rfl
    · exact ih h.2 i h'
    · exact h.1

/-- The bit-extraction pattern of the source (`(m >>> b) & 1 !== 0`) is
`Nat.testBit`. -/
theorem bitGet_iff_testBit (m b : Nat) :
    ((m >>> b) &&& 1 ≠ 0) ↔ Nat.testBit m b = true := by
  rw [Nat.and_one_is_mod, Nat.testBit_to_div_mod, Nat.shiftRight_eq_div_pow,
    decide_eq_true_eq]
  omega

/-- The 32-bit mask that the interval list `t` induces on block `idx`
(bits of code points `idx*32 .. idx*32+31` covered by an interval). -/
def blockContrib (idx : Nat) (p : Nat × Nat) : Nat :=
  if p.1 ≤ idx * 32 + 31 ∧ idx * 32 ≤ p.2 then
    ((1 <<< (min p.2 (idx * 32 + 31) + 1 - max p.1 (idx * 32))) - 1) <<<
      (max p.1 (idx * 32) - idx * 32)
  else 0

def maskFromTable (t : List (Nat × Nat)) (idx : Nat) : Nat :=
  t.foldr (fun p acc => blockContrib idx p ||| acc) 0

theorem testBit_blockContrib {idx b : Nat} (hb : b < 32) (p : Nat × Nat) :
    Nat.testBit (blockContrib idx p) b = true ↔
      p.1 ≤ idx * 32 + b ∧ idx * 32 + b ≤ p.2 := by
  rw [blockContrib]
  split
  · rename_i h
    rw [Nat.one_shiftLeft, Nat.testBit_shiftLeft, Bool.and_eq_true,
      Nat.testBit_two_pow_sub_one, decide_eq_true_eq, ge_iff_le,
      decide_eq_true_eq]
    omega
  · rename_i h
    rw [Nat.zero_testBit]
    constructor
    · intro hfalse; exact absurd hfalse (by simp)
    · intro hmem
      exact absurd ⟨by omega, by omega⟩ h

theorem testBit_maskFromTable {t : List (Nat × Nat)} {idx b : Nat}
    (hb : b < 32) :
    Nat.testBit (maskFromTable t idx) b = true ↔
      ∃ p ∈ t, p.1 ≤ idx * 32 + b ∧ idx * 32 + b ≤ p.2 := by
  induction t with
  | nil => simp [maskFromTable]
  | cons p t ih =>
    have hfold : maskFromTable (p :: t) idx =
        blockContrib idx p ||| maskFromTable t idx := rfl
    rw [hfold, Nat.testBit_or, Bool.or_eq_true, testBit_blockContrib hb, ih]
    constructor
    · rintro (h | ⟨q, hq, h⟩)
      · exact ⟨p, List.mem_cons_self p t, h⟩
      · exact ⟨q, List.mem_cons_of_mem _ hq, h⟩
    · rintro ⟨q, hq, h⟩
      rcases List.mem_cons.mp hq with rfl | hq
      · exact Or.inl h
      · exact Or.inr ⟨q, hq, h⟩

theorem lookupZero_eq_zero {l : List (Nat × Int)} {idx : Nat}
    (h : ∀ kv ∈ l, kv.1 ≠ idx) : lookupZero l idx = 0 := by
  induction l with
  | nil => rfl
  | cons kv l ih =>
    rw [show lookupZero (kv :: l) idx =
        (if idx = kv.1 then kv.2 else lookupZero l idx) from rfl]
    rw [if_neg fun he => h kv (List.mem_cons_self kv l) he.symm]
    exact ih fun q hq => h q (List.mem_cons_of_mem _ hq)

/-! ### The ambiguous bitset accessor vs. the hardcoded interval table -/

set_option maxRecDepth 40000

theorem shiftRight5_eq_div (cp : Nat) : cp >>> 5 = cp / 32 := by
  rw [Nat.shiftRight_eq_div_pow]

theorem and31_eq_mod (cp : Nat) : cp &&& 31 = cp % 32 := by
  have h := Nat.and_pow_two_sub_one_eq_mod cp 5
  norm_num at h
  exact h

theorem ambBit_iff_testBit (cp : Nat) :
    ambBit cp = true ↔
      Nat.testBit (toU32 (ambiguous (cp / 32))) (cp % 32) = true := by
  rw [ambBit, decide_eq_true_eq, shiftRight5_eq_div, and31_eq_mod,
    bitGet_iff_testBit]

theorem ambBit_of_dense {cp : Nat} (hd : ambiguous (cp / 32) = -1) :
    ambBit cp = true := by
  rw [ambBit_iff_testBit, hd,
    show toU32 (-1) = 2 ^ 32 - 1 from rfl,
    Nat.testBit_two_pow_sub_one, decide_eq_true_eq]
  omega

theorem ambBit_of_zero {cp : Nat} (hz : ambiguous (cp / 32) = 0) :
    ambBit cp = false := by
  rw [← Bool.not_eq_true, ambBit_iff_testBit, hz,
    show toU32 0 = 0 from rfl, Nat.zero_testBit]
  simp

theorem ambiguous_eq_negOne {idx : Nat}
    (h : idx = 33 ∨ (291 ≤ idx ∧ idx ≤ 297 ∧ idx ≠ 295) ∨
      (1792 ≤ idx ∧ idx ≤ 1991) ∨
      (30720 ≤ idx ∧ idx ≤ 34814 ∧ idx ≠ 32767)) :
    ambiguous idx = -1 := by
  rw [ambiguous, if_pos h]

theorem ambiguousMap_keys :
    ∀ kv ∈ ambiguousMapList,
      kv.1 ≤ 315 ∨ kv.1 = 2047 ∨ kv.1 = 32767 ∨ kv.1 = 34815 := by decide

theorem ambiguous_eq_zero {idx : Nat}
    (hno : ¬(idx = 33 ∨ (291 ≤ idx ∧ idx ≤ 297 ∧ idx ≠ 295) ∨
      (1792 ≤ idx ∧ idx ≤ 1991) ∨
      (30720 ≤ idx ∧ idx ≤ 34814 ∧ idx ≠ 32767)))
    (hkey : 315 < idx ∧ idx ≠ 2047 ∧ idx ≠ 32767 ∧ idx ≠ 34815) :
    ambiguous idx = 0 := by
  rw [ambiguous, if_neg hno]
  exact lookupZero_eq_zero fun kv hkv => by
    rcases ambiguousMap_keys kv hkv with h | h | h | h <;> omega

theorem amTable_gap1 : ∀ p ∈ amTable, p.2 < 10112 ∨ 0xE000 ≤ p.1 := by decide

theorem amTable_gap2 : ∀ p ∈ amTable, p.2 < 0xF900 ∨ 0xFFE0 ≤ p.1 := by
  decide

theorem amTable_gap3 : ∀ p ∈ amTable, p.2 < 0x10000 ∨ 0xF0000 ≤ p.1 := by
  decide

theorem not_inAmbTable_of_gap {cp lo hi : Nat}
    (hgap : ∀ p ∈ amTable, p.2 < lo ∨ hi ≤ p.1)
    (h1 : lo ≤ cp) (h2 : cp < hi) : ¬InAmbTable cp := by
  rintro ⟨p, hp, hc1, hc2⟩
  rcases hgap p hp with h | h <;> omega

theorem mask_check :
    checkBelow
      (fun idx => toU32 (ambiguous idx) == maskFromTable amTable idx)
      316 = true := by decide

theorem bulk_iff {cp : Nat} (h : cp < 10112) :
    (ambBit cp = true ↔ InAmbTable cp) := by
  have hmask := checkBelow_spec mask_check (cp / 32) (by omega)
  rw [beq_iff_eq] at hmask
  rw [ambBit_iff_testBit, hmask,
    testBit_maskFromTable (show cp % 32 < 32 by omega),
    show cp / 32 * 32 + cp % 32 = cp from by omega]
  exact Iff.rfl

theorem block2047_check :
    checkBelow
      (fun k => ambBit (0xFFE0 + k) == decide (InAmbTable (0xFFE0 + k)))
      32 = true := by decide

theorem block32767_check :
    checkBelow
      (fun k => ambBit (0xFFFE0 + k) == decide (InAmbTable (0xFFFE0 + k)))
      32 = true := by decide

theorem block34815_check :
    checkBelow
      (fun k => ambBit (0x10FFE0 + k) == decide (InAmbTable (0x10FFE0 + k)))
      32 = true := by decide

theorem boundary_iff {base cp : Nat}
    (hch : checkBelow
      (fun k => ambBit (base + k) == decide (InAmbTable (base + k)))
      32 = true)
    (h1 : base ≤ cp) (h2 : cp < base + 32) :
    (ambBit cp = true ↔ InAmbTable cp) := by
  have h := checkBelow_spec hch (cp - base) (by omega)
  rw [show base + (cp - base) = cp from by omega, beq_iff_eq] at h
  rw [h, decide_eq_true_eq]

/-- C8: the dense-range/sparse-map bitset accessor of
`src/src/ambiguous.ts` defines exactly the same membership as the
hardcoded sorted interval table used by `wcwidthCjk`: for every code
point in `[0, 0x10FFFF]`, bit `cp & 31` of `ambiguous (cp >> 5)` is set
iff `cp` lies in one of the intervals — the dense-range shortcut changes
no memberships. -/
theorem ambBit_iff_inAmbTable {cp : Nat} (h : cp ≤ 0x10FFFF) :
    (ambBit cp = true ↔ InAmbTable cp) := by
  rcases Nat.lt_or_ge cp 10112 with h1 | h1
  · exact bulk_iff h1
  rcases Nat.lt_or_ge cp 0xE000 with h2 | h2
  · rw [ambBit_of_zero (ambiguous_eq_zero (by omega) (by omega))]
    exact iff_of_false (by simp) (not_inAmbTable_of_gap amTable_gap1 h1 h2)
  rcases Nat.lt_or_ge cp 0xF900 with h3 | h3
  · exact iff_of_true (ambBit_of_dense (ambiguous_eq_negOne (by omega)))
      ⟨(0xE000, 0xF8FF), by decide, h2, by omega⟩
  rcases Nat.lt_or_ge cp 0xFFE0 with h4 | h4
  · rw [ambBit_of_zero (ambiguous_eq_zero (by omega) (by omega))]
    exact iff_of_false (by simp) (not_inAmbTable_of_gap amTable_gap2 h3 h4)
  rcases Nat.lt_or_ge cp 0x10000 with h5 | h5
  · exact boundary_iff block2047_check h4 (by omega)
  rcases Nat.lt_or_ge cp 0xF0000 with h6 | h6
  · rw [ambBit_of_zero (ambiguous_eq_zero (by omega) (by omega))]
    exact iff_of_false (by simp) (not_inAmbTable_of_gap amTable_gap3 h5 h6)
  rcases Nat.lt_or_ge cp 0xFFFE0 with h7 | h7
  · exact iff_of_true (ambBit_of_dense (ambiguous_eq_negOne (by omega)))
      ⟨(0xF0000, 0xFFFFD), by decide, h6, by omega⟩
  rcases Nat.lt_or_ge cp 0x100000 with h8 | h8
  · exact boundary_iff block32767_check h7 (by omega)
  rcases Nat.lt_or_ge cp 0x10FFE0 with h9 | h9
  · exact iff_of_true (ambBit_of_dense (ambiguous_eq_negOne (by omega)))
      ⟨(0x100000, 0x10FFFD), by decide, h8, by omega⟩
  · exact boundary_iff block34815_check h9 (by omega)

theorem ambBit_iff_inAmbTable_witness : ambBit 0xA1 = true :=
  (ambBit_iff_inAmbTable (show (0xA1 : Nat) ≤ 0x10FFFF from by decide)).mpr
    (by decide)

section Sanity

/-- A combining accessor that is constantly zero (empty bitset). -/
def noComb : Nat → Int := fun _ => 0

example : wcwidth noComb (some 0x61) = 1 := by decide
example : wcwidth noComb (some 0x4F60) = 2 := by decide
example : wcwidth noComb (some 0x7F) = -1 := by decide
example : wcwidth noComb (some 0) = 0 := by decide
example : wcwidth noComb (some 0x10FFFF) = 1 := by decide
example : wcswidth noComb [0x68, 0x69] none = 2 := by decide
example : wcswidth noComb [0x68, 0x07, 0x69] none = -1 := by decide
example : wcswidth noComb [0x68, 0x65, 0x6C, 0x6C, 0x6F] (some 3) = 3 := by decide
example : ambBit 0xA1 = true := by decide
example : ambBit 0xA2 = false := by decide
example : InAmbTable 0xA1 := by decide
example : ambBit 0xE000 = true := by decide
example : ambBit 0x10FFFD = true := by decide
example : ambBit 0x10FFFE = false := by decide

end Sanity

/-- A combining accessor with every bit set, used to show that earlier
rules take precedence over the combining bitset. -/
def fullComb : Nat → Int := fun _ => -1

/-- `wcwidth` only ever produces `-1`, `0`, `1` or `2`. -/
theorem wcwidth_cases (combining : Nat → Int) (char : Option Nat) :
    wcwidth combining char = -1 ∨ wcwidth combining char = 0 ∨
    wcwidth combining char = 1 ∨ wcwidth combining char = 2 := by
  cases char with
  | none => exact Or.inl rfl
  | some ucs =>
    simp only [wcwidth]
    split_ifs <;> norm_num

/-- C1: for every code point `cp` in `[0, 0x10FFFF]` that is not NUL, not
a C0/C1 control or DEL, and not in the combining bitset, `wcwidth`
returns the value of the first matching rule of the spec's ordered list:
1 if `cp < 0x1100`; 2 if `cp ≤ 0x115F` or `cp ∈ {0x2329, 0x232A}`; 1 if
`cp = 0x3164`; 2 if `0x2E80 ≤ cp ≤ 0xA4CF` and `cp ≠ 0x303F`; 2 if `cp`
lies in one of the eight wide ranges; otherwise 1. -/
theorem wcwidth_decision_order (combining : Nat → Int) (cp : Nat)
    (_hval : cp ≤ 0x10FFFF) (h0 : cp ≠ 0)
    (hctl : ¬(cp < 32 ∨ (0x7f ≤ cp ∧ cp < 0xa0)))
    (hcomb : isCombining combining cp = false) :
    wcwidth combining (some cp) =
      if cp < 0x1100 then 1
      else if cp ≤ 0x115f ∨ cp = 0x2329 ∨ cp = 0x232a then 2
      else if cp = 0x3164 then 1
      else if 0x2e80 ≤ cp ∧ cp ≤ 0xa4cf ∧ cp ≠ 0x303f then 2
      else if (0xac00 ≤ cp ∧ cp ≤ 0xd7a3) ∨
              (0xf900 ≤ cp ∧ cp ≤ 0xfaff) ∨
              (0xfe10 ≤ cp ∧ cp ≤ 0xfe19) ∨
              (0xfe30 ≤ cp ∧ cp ≤ 0xfe6f) ∨
              (0xff00 ≤ cp ∧ cp ≤ 0xff60) ∨
              (0xffe0 ≤ cp ∧ cp ≤ 0xffe6) ∨
              (0x20000 ≤ cp ∧ cp ≤ 0x2fffd) ∨
              (0x30000 ≤ cp ∧ cp ≤ 0x3fffd) then 2
      else 1 := by
  simp only [wcwidth]
  rw [if_neg h0, if_neg hctl, if_neg (by simp [hcomb])]

theorem wcwidth_decision_order_witness :
    wcwidth noComb (some 0x3164) =
      if (0x3164 : Nat) < 0x1100 then 1
      else if (0x3164 : Nat) ≤ 0x115f ∨ (0x3164 : Nat) = 0x2329 ∨
              (0x3164 : Nat) = 0x232a then 2
      else if (0x3164 : Nat) = 0x3164 then 1
      else if 0x2e80 ≤ (0x3164 : Nat) ∧ (0x3164 : Nat) ≤ 0xa4cf ∧
              (0x3164 : Nat) ≠ 0x303f then 2
      else if (0xac00 ≤ (0x3164 : Nat) ∧ (0x3164 : Nat) ≤ 0xd7a3) ∨
              (0xf900 ≤ (0x3164 : Nat) ∧ (0x3164 : Nat) ≤ 0xfaff) ∨
              (0xfe10 ≤ (0x3164 : Nat) ∧ (0x3164 : Nat) ≤ 0xfe19) ∨
              (0xfe30 ≤ (0x3164 : Nat) ∧ (0x3164 : Nat) ≤ 0xfe6f) ∨
              (0xff00 ≤ (0x3164 : Nat) ∧ (0x3164 : Nat) ≤ 0xff60) ∨
              (0xffe0 ≤ (0x3164 : Nat) ∧ (0x3164 : Nat) ≤ 0xffe6) ∨
              (0x20000 ≤ (0x3164 : Nat) ∧ (0x3164 : Nat) ≤ 0x2fffd) ∨
              (0x30000 ≤ (0x3164 : Nat) ∧ (0x3164 : Nat) ≤ 0x3fffd) then 2
      else 1 :=
  wcwidth_decision_order noComb 0x3164 (by decide) (by decide) (by decide)
    (by decide)

/-- C5: `wcwidth(0) = 0`, and every code point in `[1, 31]` or
`[0x7F, 0x9F]` yields `-1`; these rules win regardless of the contents of
the combining bitset (the accessor is universally quantified). -/
theorem wcwidth_controls (combining : Nat → Int) :
    wcwidth combining (some 0) = 0 ∧
    ∀ cp, (1 ≤ cp ∧ cp ≤ 31) ∨ (0x7f ≤ cp ∧ cp ≤ 0x9f) →
      wcwidth combining (some cp) = -1 := by
  constructor
  · rfl
  · intro cp h
    simp only [wcwidth]
    rw [if_neg (by omega), if_pos (by omega)]

theorem wcwidth_controls_witness :
    wcwidth fullComb (some 0x7f) = -1 :=
  (wcwidth_controls fullComb).2 0x7f (by decide)

/-- C6: a valid code point outside the control rules, the combining
bitset and every wide range is classified 1 (Narrow), never `-1`; the
maximal code point `0x10FFFF` is the canonical instance (see witness). -/
theorem wcwidth_default_narrow (combining : Nat → Int) (cp : Nat)
    (_hval : cp ≤ 0x10FFFF) (h0 : cp ≠ 0)
    (hctl : ¬(cp < 32 ∨ (0x7f ≤ cp ∧ cp < 0xa0)))
    (hcomb : isCombining combining cp = false)
    (hjamo : ¬(0x1100 ≤ cp ∧ cp ≤ 0x115f))
    (hang1 : cp ≠ 0x2329) (hang2 : cp ≠ 0x232a)
    (hcjk : ¬(0x2e80 ≤ cp ∧ cp ≤ 0xa4cf ∧ cp ≠ 0x303f))
    (hwide : ¬((0xac00 ≤ cp ∧ cp ≤ 0xd7a3) ∨
              (0xf900 ≤ cp ∧ cp ≤ 0xfaff) ∨
              (0xfe10 ≤ cp ∧ cp ≤ 0xfe19) ∨
              (0xfe30 ≤ cp ∧ cp ≤ 0xfe6f) ∨
              (0xff00 ≤ cp ∧ cp ≤ 0xff60) ∨
              (0xffe0 ≤ cp ∧ cp ≤ 0xffe6) ∨
              (0x20000 ≤ cp ∧ cp ≤ 0x2fffd) ∨
              (0x30000 ≤ cp ∧ cp ≤ 0x3fffd))) :
    wcwidth combining (some cp) = 1 := by
  simp only [wcwidth]
  rw [if_neg h0, if_neg hctl, if_neg (by simp [hcomb])]
  by_cases hlt : cp < 0x1100
  · rw [if_pos hlt]
  · rw [if_neg hlt, if_neg (by omega), if_neg (by omega), if_neg hcjk,
      if_neg hwide]

theorem wcwidth_default_narrow_witness :
    wcwidth noComb (some 0x10FFFF) = 1 :=
  wcwidth_default_narrow noComb 0x10FFFF (by decide) (by decide) (by decide)
    (by decide) (by decide) (by decide) (by decide) (by decide) (by decide)

/-- C9: classification is total: for every input (including the one with
an absent first code point, which yields `-1`) `wcwidth` returns exactly
one of `-1`, `0`, `1`, `2`, whatever the combining bitset contains. -/
theorem wcwidth_total (combining : Nat → Int) (char : Option Nat) :
    wcwidth combining none = -1 ∧
    (wcwidth combining char = -1 ∨ wcwidth combining char = 0 ∨
     wcwidth combining char = 1 ∨ wcwidth combining char = 2) :=
  ⟨rfl, wcwidth_cases combining char⟩

/-- C10: every code point in the surrogate range `[0xD800, 0xDFFF]` that
is not in the combining bitset falls through every rule to the Narrow
default: the reference `wcwidth` classifies it as 1, not as `-1`. -/
theorem wcwidth_surrogate_narrow (combining : Nat → Int) (cp : Nat)
    (h1 : 0xD800 ≤ cp) (h2 : cp ≤ 0xDFFF)
    (hcomb : isCombining combining cp = false) :
    wcwidth combining (some cp) = 1 := by
  simp only [wcwidth]
  rw [if_neg (by omega), if_neg (by omega), if_neg (by simp [hcomb]),
    if_neg (by omega), if_neg (by omega), if_neg (by omega),
    if_neg (by omega), if_neg (by omega)]

theorem wcwidth_surrogate_narrow_witness :
    wcwidth noComb (some 0xD800) = 1 :=
  wcwidth_surrogate_narrow noComb 0xD800 (by decide) (by decide) (by decide)

/-! ### Aggregation over strings -/

theorem wcswidthGo_none_sum (combining : Nat → Int) :
    ∀ (s : List Nat) (count : Nat) (width : Int),
      (∀ c ∈ s, 0 ≤ wcwidth combining (some c)) →
      wcswidthGo combining none s count width =
        width + (s.map (fun c => wcwidth combining (some c))).sum := by
  intro s
  induction s with
  | nil => intro count width _; simp [wcswidthGo]
  | cons c rest ih =>
    intro count width h
    have hc : 0 ≤ wcwidth combining (some c) := h c (List.mem_cons_self c rest)
    rw [wcswidthGo, if_neg (by simp [limitReached])]
    simp only []
    rw [if_neg (by omega),
      ih (count + 1) _ (fun x hx => h x (List.mem_cons_of_mem _ hx))]
    rw [List.map_cons, List.sum_cons, add_assoc]

theorem wcswidthGo_none_bad (combining : Nat → Int) {bad : Nat}
    (hbad : wcwidth combining (some bad) < 0) :
    ∀ (pre rest : List Nat) (count : Nat) (width : Int),
      (∀ c ∈ pre, 0 ≤ wcwidth combining (some c)) →
      wcswidthGo combining none (pre ++ bad :: rest) count width = -1 := by
  intro pre
  induction pre with
  | nil =>
    intro rest count width _
    rw [List.nil_append, wcswidthGo, if_neg (by simp [limitReached])]
    simp only []
    rw [if_pos hbad]
  | cons c pre ih =>
    intro rest count width h
    have hc : 0 ≤ wcwidth combining (some c) := h c (List.mem_cons_self c pre)
    rw [List.cons_append, wcswidthGo, if_neg (by simp [limitReached])]
    simp only []
    rw [if_neg (by omega)]
    exact ih rest (count + 1) _ (fun x hx => h x (List.mem_cons_of_mem _ hx))

/-- C2: on a non-empty string whose code points all have non-negative
width, `wcswidth` is the sum of the per-code-point widths; whenever a
negative-width code point occurs after a non-negative prefix, the result
is `-1`, and the code points after the offender are never consulted (the
result is the same for every continuation `rest2`). -/
theorem wcswidth_sum_shortcircuit (combining : Nat → Int) (s : List Nat)
    (hne : s ≠ []) :
    ((∀ c ∈ s, 0 ≤ wcwidth combining (some c)) →
      wcswidth combining s none =
        (s.map (fun c => wcwidth combining (some c))).sum) ∧
    (∀ pre bad rest rest2, s = pre ++ bad :: rest →
      (∀ c ∈ pre, 0 ≤ wcwidth combining (some c)) →
      wcwidth combining (some bad) < 0 →
      wcswidth combining s none = -1 ∧
      wcswidth combining (pre ++ bad :: rest2) none = -1) := by
  constructor
  · intro h
    rw [wcswidth, if_neg hne, wcswidthGo_none_sum combining s 0 0 h, zero_add]
  · intro pre bad rest rest2 hs hpre hbad
    subst hs
    refine ⟨?_, ?_⟩
    · rw [wcswidth, if_neg hne]
      exact wcswidthGo_none_bad combining hbad pre rest 0 0 hpre
    · rw [wcswidth, if_neg (by simp)]
      exact wcswidthGo_none_bad combining hbad pre rest2 0 0 hpre

theorem wcswidth_sum_shortcircuit_witness :
    wcswidth noComb [0x68, 0x07, 0x63] none = -1 ∧
    wcswidth noComb [0x68, 0x07, 0x41] none = -1 :=
  (wcswidth_sum_shortcircuit noComb [0x68, 0x07, 0x63] (by decide)).2
    [0x68] 0x07 [0x63] [0x41] rfl (by decide) (by decide)

theorem wcswidthGo_nil (combining : Nat → Int) (n : Option Nat)
    (count : Nat) (width : Int) :
    wcswidthGo combining n [] count width = width := rfl

theorem wcswidthGo_cons (combining : Nat → Int) (n : Option Nat) (c : Nat)
    (rest : List Nat) (count : Nat) (width : Int) :
    wcswidthGo combining n (c :: rest) count width =
      if limitReached n count then width
      else if wcwidth combining (some c) < 0 then -1
      else wcswidthGo combining n rest (count + 1)
        (width + wcwidth combining (some c)) := rfl

theorem limitReached_none (count : Nat) : limitReached none count = false :=
  rfl

theorem limitReached_some (m count : Nat) :
    limitReached (some m) count = decide (m ≤ count) := rfl

theorem wcswidthGo_some_take (combining : Nat → Int) (n : Nat) :
    ∀ (s : List Nat) (count : Nat) (width : Int),
      wcswidthGo combining (some n) s count width =
        wcswidthGo combining none (s.take (n - count)) count width := by
  intro s
  induction s with
  | nil =>
    intro count width
    rw [List.take_nil, wcswidthGo_nil, wcswidthGo_nil]
  | cons c rest ih =>
    intro count width
    by_cases h : n ≤ count
    · rw [show n - count = 0 from by omega, List.take_zero,
        wcswidthGo_cons, limitReached_some,
        if_pos (show decide (n ≤ count) = true from by simpa using h)]
      rfl
    · rw [show n - count = (n - count - 1) + 1 from by omega,
        List.take_succ_cons, wcswidthGo_cons, limitReached_some,
        if_neg (show ¬decide (n ≤ count) = true from by simpa using h)]
      conv_rhs => rw [wcswidthGo_cons, limitReached_none]
      rw [if_neg (show ¬(false : Bool) = true from by simp)]
      by_cases hw : wcwidth combining (some c) < 0
      · rw [if_pos hw, if_pos hw]
      · rw [if_neg hw, if_neg hw, ih (count + 1),
          show n - (count + 1) = n - count - 1 from by omega]

/-- C7: `wcswidth s (some n)` consumes exactly the first
`min n (length s)` code points — it equals `wcswidth` of `s.take n` —
and both a limit of 0 and the empty string give 0 for any string and
any limit. -/
theorem wcswidth_limit (combining : Nat → Int) (s : List Nat) (n : Nat)
    (m : Option Nat) :
    wcswidth combining s (some n) = wcswidth combining (s.take n) none ∧
    wcswidth combining s (some 0) = 0 ∧
    wcswidth combining [] m = 0 := by
  have htake : ∀ k, wcswidth combining s (some k) =
      wcswidth combining (s.take k) none := by
    intro k
    by_cases hs : s = []
    · subst hs; rw [List.take_nil]; simp [wcswidth]
    · rw [wcswidth, if_neg hs, wcswidthGo_some_take, Nat.sub_zero]
      by_cases ht : s.take k = []
      · rw [ht, wcswidth, if_pos rfl, wcswidthGo]
      · rw [wcswidth, if_neg ht]
  refine ⟨htake n, ?_, rfl⟩
  rw [htake 0, List.take_zero, wcswidth, if_pos rfl]

/-! ### The O(1) multi-level table variant -/

/-- Classification byte stored in the table: `0xFF` encodes Invalid
(`-1`), other widths are stored as their value. -/
def encodeWidth (w : Int) : Nat := if w = -1 then 0xFF else w.toNat

/-- Modelled from the spec: the generated binary module `src/src/table`
(the `TABLE` byte buffer) is not part of the corpus. Per spec §3/§4.3 it
is one buffer holding a five-field header (`shift1`, `bound1`, `shift2`,
`mask2`, `mask3`), a stage-1 array of 32-bit offsets starting at byte
20, a stage-2 array of 32-bit offsets, and stage-3 classification
bytes, built from the classifier so that the three-stage lookup yields
the classification byte of each code point. This model chooses
`shift1 = 16`, `bound1 = 17`, `shift2 = 8`, `mask2 = mask3 = 255` and
lays the stages out contiguously (stage 1 at byte 20, stage 2 at byte
88, stage 3 at byte 17496) without row deduplication, which the spec
describes as a size optimization that does not affect lookup results.
`specTableU32 off` is the little-endian 32-bit read at byte offset
`off` used by the runtime's `DataView`. -/
def specTableU32 (off : Nat) : Nat :=
  if off = 0 then 16
  else if off = 4 then 17
  else if off = 8 then 8
  else if off = 12 then 255
  else if off = 16 then 255
  else if off < 88 then 88 + (off - 20) / 4 * 1024
  else 17496 + (off - 88) / 4 * 256

/-- Modelled from the spec: byte read `TABLE[pos]` in the stage-3 region
of the spec-modelled table built from the classification byte
function `f` (row of block `(i1, i2)` starts at byte
`17496 + (i1 * 256 + i2) * 256`, so the byte at `pos` is the class of
code point `pos - 17496`). -/
def specTableByte (f : Nat → Nat) (pos : Nat) : Nat := f (pos - 17496)

/-- `wcwidthTableLookup`, translated from `src/src/index.ts` lines
54-78, parameterized by the buffer readers (`u32 off` is
`view.getUint32(off, true)`, `byteAt pos` is `TABLE[pos]`). -/
def wcwidthTableLookup (u32 byteAt : Nat → Nat) (cp : Nat) : Nat :=
  let shift1 := u32 0
  let bound := u32 4
  let index1 := cp >>> shift1
  if bound ≤ index1 then 0xFF
  else
    let lookup1 := u32 (20 + index1 * 4)
    if lookup1 = 0 then 0xFF
    else
      let shift2 := u32 8
      let mask2 := u32 12
      let index2 := (cp >>> shift2) &&& mask2
      let lookup2 := u32 (lookup1 + index2 * 4)
      if lookup2 = 0 then 0xFF
      else
        let mask3 := u32 16
        let index3 := cp &&& mask3
        byteAt (lookup2 + index3)

/-- The table-based `wcwidth`, translated from `src/src/index.ts` lines
11-17: look up the byte, map the `0xFF` sentinel to `-1`. The stage-3
byte function `f` stands for the missing generated table content. -/
def wcwidthO1 (f : Nat → Nat) (char : Option Nat) : Int :=
  match char with
  | none => -1
  | some cp =>
    let res := wcwidthTableLookup specTableU32 (specTableByte f) cp
    if res = 0xFF then -1 else res

theorem specTableU32_stage1 {i : Nat} (hi : i < 17) :
    specTableU32 (20 + i * 4) = 88 + i * 1024 := by
  rw [specTableU32,
    if_neg (show ¬(20 + i * 4 = 0) from by omega),
    if_neg (show ¬(20 + i * 4 = 4) from by omega),
    if_neg (show ¬(20 + i * 4 = 8) from by omega),
    if_neg (show ¬(20 + i * 4 = 12) from by omega),
    if_neg (show ¬(20 + i * 4 = 16) from by omega),
    if_pos (show 20 + i * 4 < 88 from by omega)]
  omega

theorem specTableU32_stage2 {i j : Nat} (hi : i < 17) (hj : j < 256) :
    specTableU32 (88 + i * 1024 + j * 4) = 17496 + (i * 256 + j) * 256 := by
  rw [specTableU32,
    if_neg (show ¬(88 + i * 1024 + j * 4 = 0) from by omega),
    if_neg (show ¬(88 + i * 1024 + j * 4 = 4) from by omega),
    if_neg (show ¬(88 + i * 1024 + j * 4 = 8) from by omega),
    if_neg (show ¬(88 + i * 1024 + j * 4 = 12) from by omega),
    if_neg (show ¬(88 + i * 1024 + j * 4 = 16) from by omega),
    if_neg (show ¬(88 + i * 1024 + j * 4 < 88) from by omega)]
  omega

theorem and255_eq_mod (x : Nat) : x &&& 255 = x % 256 := by
  have h := Nat.and_pow_two_sub_one_eq_mod x 8
  norm_num at h
  exact h

theorem shiftRight8_eq_div (x : Nat) : x >>> 8 = x / 256 := by
  rw [Nat.shiftRight_eq_div_pow]

theorem shiftRight16_eq_div (x : Nat) : x >>> 16 = x / 65536 := by
  rw [Nat.shiftRight_eq_div_pow]

/-- On every valid code point the three-stage lookup of the runtime,
applied to the spec-modelled table built from `f`, returns `f cp`. -/
theorem tableLookup_eq (f : Nat → Nat) (cp : Nat) (h : cp ≤ 0x10FFFF) :
    wcwidthTableLookup specTableU32 (specTableByte f) cp = f cp := by
  have e0 : specTableU32 0 = 16 := rfl
  have e4 : specTableU32 4 = 17 := rfl
  have e8 : specTableU32 8 = 8 := rfl
  have e12 : specTableU32 12 = 255 := rfl
  have e16 : specTableU32 16 = 255 := rfl
  have h1 : cp >>> 16 < 17 := by rw [shiftRight16_eq_div]; omega
  have h2 : (cp >>> 8) &&& 255 < 256 := by rw [and255_eq_mod]; omega
  simp only [wcwidthTableLookup, specTableByte, e0, e4, e8, e12, e16]
  rw [if_neg (show ¬(17 ≤ cp >>> 16) from by omega),
    specTableU32_stage1 h1,
    if_neg (show ¬(88 + cp >>> 16 * 1024 = 0) from by omega),
    specTableU32_stage2 h1 h2,
    if_neg (show ¬(17496 + (cp >>> 16 * 256 + (cp >>> 8 &&& 255)) * 256 = 0)
      from by omega)]
  have harg : 17496 + (cp >>> 16 * 256 + (cp >>> 8 &&& 255)) * 256 +
      (cp &&& 255) - 17496 = cp := by
    rw [and255_eq_mod, and255_eq_mod, shiftRight8_eq_div, shiftRight16_eq_div]
    omega
  rw [harg]

/-- C4: the table-based `wcwidth` (multi-level O(1) lookup over the
spec-modelled table built from the reference classifier) agrees
bit-exactly with the reference `wcwidth` on every single-character
input. -/
theorem table_lookup_agrees_reference (combining : Nat → Int)
    (char : Option Nat) (h : ∀ cp, char = some cp → cp ≤ 0x10FFFF) :
    wcwidthO1 (fun cp => encodeWidth (wcwidth combining (some cp))) char =
      wcwidth combining char := by
  cases char with
  | none => rfl
  | some cp =>
    simp only [wcwidthO1]
    rw [tableLookup_eq _ cp (h cp rfl)]
    rcases wcwidth_cases combining (some cp) with hw | hw | hw | hw <;>
      simp [encodeWidth, hw]

theorem table_lookup_agrees_reference_witness :
    wcwidthO1 (fun cp => encodeWidth (wcwidth noComb (some cp)))
      (some 0x4E00) = wcwidth noComb (some 0x4E00) :=
  table_lookup_agrees_reference noComb (some 0x4E00)
    (fun cp hcp => by cases hcp; decide)

/-! ### Correctness of the hardcoded binary search -/

/-- Sortedness of an interval table: consecutive intervals are strictly
separated and every interval is well-formed. -/
def TableSorted (t : List (Nat × Nat)) : Prop :=
  (∀ i, i + 1 < t.length →
    (t.getD i (0, 0)).2 < (t.getD (i + 1) (0, 0)).1) ∧
  (∀ i, i < t.length → (t.getD i (0, 0)).1 ≤ (t.getD i (0, 0)).2)

theorem amTable_length : amTable.length = 156 := by decide

theorem amTable_sorted : TableSorted amTable := by
  constructor
  · intro i hi
    rw [amTable_length] at hi
    have hch : checkBelow (fun i =>
        decide ((amTable.getD i (0, 0)).2 <
          (amTable.getD (i + 1) (0, 0)).1)) 155 = true := by decide
    exact of_decide_eq_true (checkBelow_spec hch i (by omega))
  · intro i hi
    rw [amTable_length] at hi
    have hch : checkBelow (fun i =>
        decide ((amTable.getD i (0, 0)).1 ≤
          (amTable.getD i (0, 0)).2)) 156 = true := by decide
    exact of_decide_eq_true (checkBelow_spec hch i hi)

theorem sorted_mono {t : List (Nat × Nat)} (hs : TableSorted t) :
    ∀ i j, i < j → j < t.length →
      (t.getD i (0, 0)).2 < (t.getD j (0, 0)).1 := by
  intro i j
  induction j with
  | zero => intro h _; omega
  | succ j ih =>
    intro hij hj
    by_cases he : i = j
    · subst he; exact hs.1 i hj
    · have h1 := ih (by omega) (by omega)
      have h2 := hs.2 j (by omega)
      have h3 := hs.1 j hj
      omega

theorem getD_mem {t : List (Nat × Nat)} {i : Nat} (h : i < t.length) :
    t.getD i (0, 0) ∈ t := by
  rw [List.getD_eq_getElem?_getD, List.getElem?_eq_getElem h]
  simp

theorem mem_getD {t : List (Nat × Nat)} {p : Nat × Nat} (h : p ∈ t) :
    ∃ i, i < t.length ∧ t.getD i (0, 0) = p := by
  rcases List.mem_iff_get.mp h with ⟨⟨i, hi⟩, heq⟩
  refine ⟨i, hi, ?_⟩
  rw [List.getD_eq_getElem?_getD, List.getElem?_eq_getElem hi]
  simpa using heq

theorem bisearchGo_correct {t : List (Nat × Nat)} (hs : TableSorted t)
    (ucs : Nat) :
    ∀ (fuel : Nat) (mn mx : Int), (mx + 1 - mn).toNat ≤ fuel →
      0 ≤ mn → mx < (t.length : Int) →
      (∀ i, i < t.length → (t.getD i (0, 0)).1 ≤ ucs →
        ucs ≤ (t.getD i (0, 0)).2 → (mn ≤ (i : Int) ∧ (i : Int) ≤ mx)) →
      (bisearchGo ucs t mn mx = 1 ↔
        ∃ i, i < t.length ∧ (t.getD i (0, 0)).1 ≤ ucs ∧
          ucs ≤ (t.getD i (0, 0)).2) := by
  intro fuel
  induction fuel with
  | zero =>
    intro mn mx hf h0 hlen hinv
    rw [bisearchGo, if_neg (show ¬(mn ≤ mx) from by omega)]
    constructor
    · intro h; exact absurd h (by decide)
    · rintro ⟨i, hi, hu1, hu2⟩
      have := hinv i hi hu1 hu2
      omega
  | succ fuel ih =>
    intro mn mx hf h0 hlen hinv
    by_cases hc : mn ≤ mx
    · rw [bisearchGo, if_pos hc]
      have hmid1 : mn ≤ (mn + mx) / 2 := by omega
      have hmid2 : (mn + mx) / 2 ≤ mx := by omega
      have hmidnat : ((mn + mx) / 2).toNat < t.length := by omega
      by_cases h1 : (t.getD ((mn + mx) / 2).toNat (0, 0)).2 < ucs
      · rw [if_pos h1]
        apply ih ((mn + mx) / 2 + 1) mx (by omega) (by omega) hlen
        intro i hi hu1 hu2
        have hold := hinv i hi hu1 hu2
        have hgt : ((mn + mx) / 2).toNat < i := by
          by_contra hle
          push_neg at hle
          rcases Nat.lt_or_ge i ((mn + mx) / 2).toNat with hlt | hge
          · have hm := sorted_mono hs i ((mn + mx) / 2).toNat hlt hmidnat
            have hv := hs.2 ((mn + mx) / 2).toNat hmidnat
            omega
          · have hie : i = ((mn + mx) / 2).toNat := by omega
            subst hie
            omega
        omega
      · rw [if_neg h1]
        by_cases h2 : ucs < (t.getD ((mn + mx) / 2).toNat (0, 0)).1
        · rw [if_pos h2]
          apply ih mn ((mn + mx) / 2 - 1) (by omega) h0 (by omega)
          intro i hi hu1 hu2
          have hold := hinv i hi hu1 hu2
          have hlt : i < ((mn + mx) / 2).toNat := by
            by_contra hge
            push_neg at hge
            rcases Nat.lt_or_ge ((mn + mx) / 2).toNat i with hlt2 | hge2
            · have hm := sorted_mono hs ((mn + mx) / 2).toNat i hlt2 hi
              omega
            · have hie : i = ((mn + mx) / 2).toNat := by omega
              subst hie
              omega
          omega
        · rw [if_neg h2]
          constructor
          · intro _
            exact ⟨((mn + mx) / 2).toNat, hmidnat, by omega, by omega⟩
          · intro _; rfl
    · rw [bisearchGo, if_neg hc]
      constructor
      · intro h; exact absurd h (by decide)
      · rintro ⟨i, hi, hu1, hu2⟩
        have := hinv i hi hu1 hu2
        omega

theorem bisearchGo_zero_or_one (ucs : Nat) (t : List (Nat × Nat)) :
    ∀ (fuel : Nat) (mn mx : Int), (mx + 1 - mn).toNat ≤ fuel →
      bisearchGo ucs t mn mx = 0 ∨ bisearchGo ucs t mn mx = 1 := by
  intro fuel
  induction fuel with
  | zero =>
    intro mn mx hf
    rw [bisearchGo, if_neg (show ¬(mn ≤ mx) from by omega)]
    exact Or.inl rfl
  | succ fuel ih =>
    intro mn mx hf
    by_cases hc : mn ≤ mx
    · rw [bisearchGo, if_pos hc]
      by_cases h1 : (t.getD ((mn + mx) / 2).toNat (0, 0)).2 < ucs
      · rw [if_pos h1]; exact ih _ _ (by omega)
      · rw [if_neg h1]
        by_cases h2 : ucs < (t.getD ((mn + mx) / 2).toNat (0, 0)).1
        · rw [if_pos h2]; exact ih _ _ (by omega)
        · rw [if_neg h2]; exact Or.inr rfl
    · rw [bisearchGo, if_neg hc]; exact Or.inl rfl

theorem bisearch_zero_or_one (ucs : Nat) :
    bisearch ucs amTable = 0 ∨ bisearch ucs amTable = 1 := by
  rw [bisearch]
  split
  · exact Or.inl rfl
  · exact bisearchGo_zero_or_one ucs amTable
      (((amTable.length : Int) - 1) + 1 - 0).toNat 0
      ((amTable.length : Int) - 1) (Nat.le_refl _)

theorem bisearch_iff_inAmbTable (ucs : Nat) :
    bisearch ucs amTable = 1 ↔ InAmbTable ucs := by
  have hs := amTable_sorted
  have hlen := amTable_length
  have hidx : ((amTable.length : Int) - 1).toNat = 155 := by
    rw [amTable_length]; decide
  rw [bisearch, hidx]
  by_cases hg : ucs < (amTable.getD 0 (0, 0)).1 ∨
      (amTable.getD 155 (0, 0)).2 < ucs
  · rw [if_pos hg]
    constructor
    · intro h; exact absurd h (by decide)
    · rintro ⟨p, hp, h1, h2⟩
      rcases mem_getD hp with ⟨i, hi, hieq⟩
      rw [← hieq] at h1 h2
      rw [hlen] at hi
      rcases hg with hg | hg
      · by_cases hi0 : i = 0
        · subst hi0; omega
        · have hm := sorted_mono hs 0 i (by omega) (by rw [hlen]; omega)
          have hv := hs.2 0 (by rw [hlen]; omega)
          omega
      · by_cases hilast : i = 155
        · subst hilast; omega
        · have hm := sorted_mono hs i 155 (by omega) (by rw [hlen]; omega)
          have hv := hs.2 155 (by rw [hlen]; omega)
          omega
  · rw [if_neg hg]
    rw [bisearchGo_correct hs ucs (((amTable.length : Int) - 1) + 1 - 0).toNat
      0 ((amTable.length : Int) - 1) (Nat.le_refl _) (by omega) (by omega)
      (fun i hi h1 h2 => ⟨by omega, by omega⟩)]
    constructor
    · rintro ⟨i, hi, h1, h2⟩
      exact ⟨amTable.getD i (0, 0), getD_mem hi, h1, h2⟩
    · rintro ⟨p, hp, h1, h2⟩
      rcases mem_getD hp with ⟨i, hi, hieq⟩
      exact ⟨i, hi, by rw [hieq]; exact h1, by rw [hieq]; exact h2⟩

/-- C3: for every code point in the East-Asian-Ambiguous set (the
intervals of the hardcoded table), `wcwidthCjk` returns 2; for every
code point not in the set it returns exactly `wcwidth` of that code
point, for any combining bitset. -/
theorem wcwidthCjk_ambiguous (combining : Nat → Int) (cp : Nat) :
    (InAmbTable cp → wcwidthCjk combining (some cp) = 2) ∧
    (¬InAmbTable cp →
      wcwidthCjk combining (some cp) = wcwidth combining (some cp)) := by
  have hiff := bisearch_iff_inAmbTable cp
  have hzo := bisearch_zero_or_one cp
  constructor
  · intro h
    simp only [wcwidthCjk]
    rw [if_pos (show bisearch cp amTable ≠ 0 from by
      rw [hiff.mpr h]; decide)]
  · intro h
    have h0 : bisearch cp amTable = 0 := by
      rcases hzo with h0 | h1
      · exact h0
      · exact absurd (hiff.mp h1) h
    simp only [wcwidthCjk]
    rw [if_neg (show ¬bisearch cp amTable ≠ 0 from by
      rw [h0]; decide)]

theorem wcwidthCjk_ambiguous_witness :
    wcwidthCjk noComb (some 0xA1) = 2 :=
  (wcwidthCjk_ambiguous noComb 0xA1).1 (by decide)

end OgWcwidth
